import Mathlib

/-!
# Verification of the Deduplication & Prioritization Engine

Shallow embedding of the core of the `cron-macroeconomic` news
aggregator: `deduplication.py` (text normalization, entity extraction,
similarity scoring, near-duplicate detection, batch
grouping/selection) and the priority scorer and duplicate cache of
`fetcher_cloud.py` / `fetcher_turso.py`.

Python strings are modelled as lists of code points (`List Nat`); the
character-class predicates cover the ASCII behaviour of the regexes
used by the source (they only distinguish ASCII classes and literal
ASCII characters).  Python floats are modelled as exact rationals.
External collaborators — the `hashlib.md5` digest, the storage queries
and inserts, the feed fetch, the `dateutil` date parser — enter as
parameters or as `Except` outcomes.

The program model comes first, then the verification.
-/

/-- A Python string: a sequence of Unicode code points. -/
abbrev Text := List Nat

/-- Code points of a Lean string literal, used to write concrete inputs. -/
def chars (s : String) : Text := s.data.map Char.toNat

/-- ASCII uppercase letter (`[A-Z]`). -/
def isUpperCode (c : Nat) : Bool := 65 ≤ c && c ≤ 90

/-- ASCII lowercase letter (`[a-z]`). -/
def isLowerCode (c : Nat) : Bool := 97 ≤ c && c ≤ 122

/-- ASCII digit (`\d`). -/
def isDigitCode (c : Nat) : Bool := 48 ≤ c && c ≤ 57

/-- Word character (`\w`): letter, digit or underscore. -/
def isWordChar (c : Nat) : Bool :=
  isUpperCode c || isLowerCode c || isDigitCode c || c == 95

/-- Whitespace (`\s`): space, tab, newline, vertical tab, form feed,
carriage return. -/
def isPySpace (c : Nat) : Bool :=
  c == 32 || c == 9 || c == 10 || c == 11 || c == 12 || c == 13

/-- `str.lower` on one code point (ASCII range, as exercised by the
source's inputs). -/
def lowerChar (c : Nat) : Nat := if isUpperCode c then c + 32 else c

/-- `text.lower()`. -/
def lowerText (t : Text) : Text := t.map lowerChar

/-- Does `re.sub(r'https?://\S+', '', ...)` find a match starting at the
head of `t`?  The pattern needs the literal scheme followed by at least
one non-whitespace character. -/
def urlStart (t : Text) : Bool :=
  ((chars "https://").isPrefixOf t && (match t.drop 8 with
    | [] => false
    | c :: _ => !isPySpace c)) ||
  ((chars "http://").isPrefixOf t && (match t.drop 7 with
    | [] => false
    | c :: _ => !isPySpace c))

/-- `re.sub(r'https?://\S+', '', text)`: left-to-right scan; a match
consumes the maximal non-whitespace run starting at the scheme.  The
`Bool` is the state "currently inside a match being dropped". -/
def stripURLs : Text → Bool → Text
  | [], _ => []
  | c :: cs, true => if isPySpace c then c :: stripURLs cs false else stripURLs cs true
  | c :: cs, false =>
    if urlStart (c :: cs) then stripURLs cs true
    else c :: stripURLs cs false

/-- `re.sub(r'[^\w\s]', ' ', text)`: punctuation and special characters
become spaces. -/
def punctToSpace (t : Text) : Text :=
  t.map fun c => if isWordChar c || isPySpace c then c else 32

/-- `re.sub(r'\b\d+\b', '', text)`: removes maximal digit runs that are
flanked by word boundaries on both sides (isolated numbers), keeping
digits embedded in words like `covid19`.  `prevW` records whether the
previously scanned character was a word character; `buf` holds a digit
run whose left side was a boundary and whose right side is still
unknown. -/
def rmIsoNums : Text → Bool → Text → Text
  | [], _, _ => []
  | c :: cs, prevW, [] =>
    if isDigitCode c && !prevW then rmIsoNums cs prevW [c]
    else c :: rmIsoNums cs (isWordChar c) []
  | c :: cs, prevW, b :: bs =>
    if isDigitCode c then rmIsoNums cs prevW ((b :: bs) ++ [c])
    else if isWordChar c then (b :: bs) ++ c :: rmIsoNums cs true []
    else c :: rmIsoNums cs false []

/-- `str.split()` worker: `w` is the pending word. -/
def splitGo : Text → Text → List Text
  | [], w => if w.isEmpty then [] else [w]
  | c :: cs, w =>
    if isPySpace c then
      if w.isEmpty then splitGo cs [] else w :: splitGo cs []
    else splitGo cs (w ++ [c])

/-- `str.split()`: split on whitespace runs, no empty tokens. -/
def pySplit (t : Text) : List Text := splitGo t []

/-- `' '.join(words)`. -/
def joinSpace : List Text → Text
  | [] => []
  | [w] => w
  | w :: ws => w ++ 32 :: joinSpace ws

/-- The fixed bilingual stopword set of `deduplication.py`. -/
def STOPWORDS : List Text :=
  ([ -- English
    "the", "a", "an", "and", "or", "but", "in", "on", "at", "to", "for",
    "of", "with", "by", "from", "as", "is", "was", "are", "were", "been",
    "be", "have", "has", "had", "do", "does", "did", "will", "would",
    "could", "should", "may", "might", "must", "shall", "can", "need",
    "it", "its", "this", "that", "these", "those", "i", "you", "he",
    "she", "we", "they", "what", "which", "who", "whom", "when", "where",
    "why", "how", "all", "each", "every", "both", "few", "more", "most",
    "other", "some", "such", "no", "not", "only", "own", "same", "so",
    "than", "too", "very", "just", "also", "now", "here", "there",
    "says", "said", "report", "reports", "according", "new", "news",
    -- Portuguese
    "o", "os", "as", "um", "uma", "uns", "umas", "de", "da", "do",
    "das", "dos", "em", "na", "nas", "nos", "por", "para", "com",
    "sem", "sob", "sobre", "entre", "e", "ou", "mas", "se", "que",
    "qual", "quais", "como", "quando", "onde", "porque", "isso", "isto",
    "esse", "essa", "este", "esta", "aquele", "aquela", "ser", "estar",
    "ter", "haver", "fazer", "dizer", "disse", "diz", "vai", "vão",
    "pode", "podem", "deve", "devem", "segundo", "ainda", "mais", "menos",
    "muito", "pouco", "bem", "mal", "já", "sempre", "nunca",
    "notícia", "notícias", "novo", "nova", "novos", "novas"
   ] : List String).map chars

/-- Keep a token: not a stopword and longer than 2 characters. -/
def goodWord (w : Text) : Bool := !STOPWORDS.contains w && decide (w.length > 2)

/-- Lexicographic comparison of code-point sequences: Python's `<=` on
strings, the order used by `words.sort()`. -/
def wordLE : Text → Text → Bool
  | [], _ => true
  | _ :: _, [] => false
  | a :: as, b :: bs =>
    if a < b then true
    else if b < a then false
    else wordLE as bs

/-- The sort relation of `words.sort()` as a `Prop` relation. -/
def wordLEP (a b : Text) : Prop := wordLE a b = true

instance : DecidableRel wordLEP := fun a b => by unfold wordLEP; infer_instance

/--
`normalize_text` (`deduplication.py`): lower-case, strip URLs, replace
punctuation by spaces, drop isolated numbers, split into words, drop
stopwords and short words, sort the words, and re-join with single
spaces.
-/
def normalize_text (t : Text) : Text :=
  if t.isEmpty then []
  else
    joinSpace
      (List.insertionSort wordLEP
        (List.filter goodWord
          (pySplit
            (rmIsoNums
              (punctToSpace
                (stripURLs (lowerText t) false))
              false []))))

/-- One match of `\$?\d+(?:\.\d+)?%?` starting at the head of `t`
(if any), together with the remaining text after the match. -/
def matchNumAt (t : Text) : Option (Text × Text) :=
  let core : Text → Text × Text := fun u =>
    let ds := u.takeWhile isDigitCode
    let r := u.dropWhile isDigitCode
    let fracRest : Text × Text :=
      match r with
      | 46 :: r2 =>
        if (r2.takeWhile isDigitCode).isEmpty then ([], r)
        else (46 :: r2.takeWhile isDigitCode, r2.dropWhile isDigitCode)
      | _ => ([], r)
    let pctRest : Text × Text :=
      match fracRest.2 with
      | 37 :: r3 => ([37], r3)
      | _ => ([], fracRest.2)
    (ds ++ fracRest.1 ++ pctRest.1, pctRest.2)
  match t with
  | [] => none
  | c :: cs =>
    if c == 36 then
      match cs with
      | d :: _ =>
        if isDigitCode d then
          let m := core cs
          some (36 :: m.1, m.2)
        else none
      | [] => none
    else if isDigitCode c then some (core t)
    else none

/-- `re.findall(r'\$?\d+(?:\.\d+)?%?', text)`: numeric tokens with
optional currency/percent markers.  Fuel-indexed left-to-right scan. -/
def findNumbers : Nat → Text → List Text
  | 0, _ => []
  | _, [] => []
  | fuel + 1, c :: cs =>
    match matchNumAt (c :: cs) with
    | some (m, r) => m :: findNumbers fuel r
    | none => findNumbers fuel cs

/-- `re.findall(r'\b[A-Z]{2,5}\b', text)`: maximal uppercase runs of
length 2–5 flanked by word boundaries.  `prevW`: previous character was
a word character (no boundary). -/
def findAcronyms : Nat → Text → Bool → List Text
  | 0, _, _ => []
  | _, [], _ => []
  | fuel + 1, c :: cs, prevW =>
    if isUpperCode c && !prevW then
      let run := (c :: cs).takeWhile isUpperCode
      let rest := (c :: cs).dropWhile isUpperCode
      if 2 ≤ run.length && run.length ≤ 5 &&
          (match rest with | [] => true | d :: _ => !isWordChar d) then
        run :: findAcronyms fuel rest true
      else findAcronyms fuel rest true
    else findAcronyms fuel cs (isWordChar c)

/-- `re.findall(r'(?<!^)(?<!\. )[A-Z][a-z]+', text)`: capitalized words
not at the string start and not right after a sentence-ending ". ".
`prev1`/`prev2` are the one and two characters before the scan point
(`none` when past the string start). -/
def findPropers : Nat → Text → Option Nat → Option Nat → List Text
  | 0, _, _, _ => []
  | _, [], _, _ => []
  | fuel + 1, c :: cs, prev1, prev2 =>
    if isUpperCode c then
      match cs with
      | d :: _ =>
        if isLowerCode d && prev1.isSome &&
            !(prev2 == some 46 && prev1 == some 32) then
          let run := cs.takeWhile isLowerCode
          let rest := cs.dropWhile isLowerCode
          (c :: run) ::
            findPropers fuel rest (c :: run).getLast? (c :: run).dropLast.getLast?
        else findPropers fuel cs (some c) prev1
      | [] => []
    else findPropers fuel cs (some c) prev1

/--
`extract_key_entities` (`deduplication.py`): the set of numeric tokens,
acronyms and capitalized words of the raw text.  The Python `set` is
modelled as a duplicate-free list (only membership and cardinality are
ever used). -/
def extract_key_entities (t : Text) : List Text :=
  (findNumbers (t.length + 1) t ++
   findAcronyms (t.length + 1) t false ++
   findPropers (t.length + 1) t none none).dedup

/--
`calculate_similarity_score` (`deduplication.py`): Jaccard similarity of
the normalized token sets, blended with key-entity overlap when both
entity sets are non-empty.  Python floats are modelled as exact
rationals (`0.4 = 2/5`, `0.6 = 3/5`). -/
def calculate_similarity_score (title1 title2 desc1 desc2 : Text) : ℚ :=
  let words1 := (pySplit (normalize_text (title1 ++ 32 :: desc1))).dedup
  let words2 := (pySplit (normalize_text (title2 ++ 32 :: desc2))).dedup
  if words1.isEmpty || words2.isEmpty then 0
  else
    let inter := (words1.filter (fun w => words2.contains w)).length
    let union := words1.length + (words2.filter (fun w => !words1.contains w)).length
    let jaccard : ℚ := if union > 0 then (inter : ℚ) / (union : ℚ) else 0
    let entities1 := extract_key_entities (title1 ++ 32 :: desc1)
    let entities2 := extract_key_entities (title2 ++ 32 :: desc2)
    if !entities1.isEmpty && !entities2.isEmpty then
      let overlap : ℚ :=
        ((entities1.filter (fun e => entities2.contains e)).length : ℚ) /
          ((max entities1.length entities2.length : Nat) : ℚ)
      jaccard * (2 / 5) + overlap * (3 / 5)
    else jaccard

/-- The shape of every token in the output of `normalize_text`. -/
def TokOK (w : Text) : Prop :=
  w ≠ [] ∧ (∀ c ∈ w, isWordChar c = true ∧ lowerChar c = c) ∧
    w.all isDigitCode = false ∧ goodWord w = true

/-- Python's substring test `needle in haystack`. -/
def pyIn (needle : Text) : Text → Bool
  | [] => needle.isEmpty
  | c :: cs => needle.isPrefixOf (c :: cs) || pyIn needle cs

/--
`calculate_priority`: lower-case the space-joined title+description; any
negative keyword occurring as a substring short-circuits with
`(-1.0, [])`; otherwise each positive keyword found adds `2.0` when it
also occurs in the lower-cased title, else `1.0`, and is appended to the
matched list. -/
def calculate_priority (title description : Text)
    (positive_keywords negative_keywords : List Text) : ℚ × List Text :=
  let text := lowerText (title ++ 32 :: description)
  if negative_keywords.any (fun kw => pyIn kw text) then (-1, [])
  else
    positive_keywords.foldl
      (fun acc kw =>
        if pyIn kw text then
          (acc.1 + (if pyIn kw (lowerText title) then 2 else 1), acc.2 ++ [kw])
        else acc)
      (0, [])

/-- The spec's reading of the negative filter: the keyword occurs
*case-insensitively* (both sides lower-cased) in the concatenated
title+description. -/
def ciOccurs (kw title description : Text) : Bool :=
  pyIn (lowerText kw) (lowerText (title ++ 32 :: description))

/-- A news item as handled by the blog-deduplication path: the fields of
the storage row that `group_similar_news`, `select_best_from_group` and
`deduplicate_news_for_blog` read. -/
structure NewsItem where
  title : Text
  description : Text
  content : Text
  priority_score : ℚ

instance : Inhabited NewsItem := ⟨⟨[], [], [], 0⟩⟩

/-- The similarity call made for a pair of items:
`calculate_similarity_score(news1['title'], news2['title'],
news1.get('description',''), news2.get('description',''))`. -/
def simItem (a b : NewsItem) : ℚ :=
  calculate_similarity_score a.title b.title a.description b.description

/-- Inner loop of `group_similar_news`: scan the enumerated tail; every
not-yet-used item whose similarity to the seed reaches the threshold is
appended to the group and its index marked used. -/
def groupInner (thr : ℚ) (seed : NewsItem) :
    List (Nat × NewsItem) → List NewsItem → List Nat → List NewsItem × List Nat
  | [], group, used => (group, used)
  | (j, y) :: rest, group, used =>
    if j ∈ used then groupInner thr seed rest group used
    else if thr ≤ simItem seed y then
      groupInner thr seed rest (group ++ [y]) (j :: used)
    else groupInner thr seed rest group used

/-- Outer loop of `group_similar_news` over the enumerated list: each
not-yet-used item seeds a group. -/
def groupOuter (thr : ℚ) :
    List (Nat × NewsItem) → List Nat → List (List NewsItem) → List (List NewsItem)
  | [], _, groups => groups
  | (i, x) :: rest, used, groups =>
    if i ∈ used then groupOuter thr rest used groups
    else
      groupOuter thr rest (groupInner thr x rest [x] (i :: used)).2
        (groups ++ [(groupInner thr x rest [x] (i :: used)).1])

/-- `group_similar_news`: greedy single-pass clustering over the indexed
item list with a set of already-assigned indices, mirroring the Python
loops (`for i, news1 in enumerate(...)`, `for j, news2 in
enumerate(news_list[i+1:], start=i+1)`, `used` set). -/
def group_similar_news (news_list : List NewsItem) (threshold : ℚ) :
    List (List NewsItem) :=
  if news_list.isEmpty then []
  else groupOuter threshold news_list.enum [] []

/-- The spec's description of the grouping pass (with the join condition
amended to "meets or exceeds"): the first remaining item seeds a group,
the later items joining are exactly those whose similarity to the seed
reaches the threshold, and grouping recurses on the rest. -/
def groupSimilarSpec (thr : ℚ) : List NewsItem → List (List NewsItem)
  | [] => []
  | x :: xs =>
    (x :: xs.filter (fun y => decide (thr ≤ simItem x y))) ::
      groupSimilarSpec thr (xs.filter (fun y => !decide (thr ≤ simItem x y)))
termination_by l => l.length
decreasing_by
  simp only [List.length_cons]
  exact Nat.lt_succ_of_le (List.length_filter_le _ _)

/-- The sort key of `select_best_from_group`: priority score, content
length, description length. -/
def itemKey (x : NewsItem) : ℚ × ℕ × ℕ :=
  (x.priority_score, x.content.length, x.description.length)

/-- Lexicographic order on sort keys (Python tuple comparison). -/
def keyLE (a b : ℚ × ℕ × ℕ) : Prop :=
  a.1 < b.1 ∨ (a.1 = b.1 ∧ (a.2.1 < b.2.1 ∨ (a.2.1 = b.2.1 ∧ a.2.2 ≤ b.2.2)))

instance : DecidableRel keyLE := fun a b => by unfold keyLE; infer_instance

/-- The comparison used by `sorted(group, key=..., reverse=True)`:
descending by key, stable. -/
def selBestRel (x y : NewsItem) : Prop := keyLE (itemKey y) (itemKey x)

instance : DecidableRel selBestRel := fun a b => by unfold selBestRel; infer_instance

/-- `select_best_from_group`: the sole member of a singleton group,
otherwise the head of the group sorted descending by
`(priority_score, len(content), len(description))`. -/
def select_best_from_group (group : List NewsItem) : NewsItem :=
  if group.length = 1 then group.headI
  else (List.insertionSort selBestRel group).headI

/-- `deduplicate_news_for_blog`: group with threshold `0.5` and keep the
best representative of each group. -/
def deduplicate_news_for_blog (news_list : List NewsItem) : List NewsItem :=
  if news_list.isEmpty then []
  else (group_similar_news news_list (1 / 2)).map select_best_from_group

/-- A cached candidate row `{'id', 'title', 'description'}` as consumed
by `is_duplicate` (`existing.get('description', '')` is total here). -/
structure CachedTitle where
  id : Nat
  title : Text
  description : Text
deriving DecidableEq

/-- `generate_title_hash`: the first 16 characters of the hex digest of
the normalized title.  The digest itself (UTF-8 encoding, `hashlib.md5`,
`hexdigest()`) is an external library call, modelled by the parameter
`h`. -/
def generate_title_hash (h : Text → Text) (title : Text) : Text :=
  (h (normalize_text title)).take 16

/-- `is_duplicate`: iterate the candidates in list order; per candidate
first the exact hash comparison (returning that candidate's id
immediately on a hit), then the similarity threshold; `none` when no
candidate matches. -/
def is_duplicate (h : Text → Text) (new_title new_desc : Text) :
    List CachedTitle → ℚ → Option Nat
  | [], _ => none
  | existing :: rest, threshold =>
    if generate_title_hash h new_title = generate_title_hash h existing.title then
      some existing.id
    else if threshold ≤ calculate_similarity_score new_title existing.title
        new_desc existing.description then
      some existing.id
    else is_duplicate h new_title new_desc rest threshold

/-- The module-level cache state: `_recent_titles_cache` and
`_cache_time` (a timestamp in seconds). -/
structure CacheState where
  recent_titles_cache : Option (List CachedTitle)
  cache_time : Option Nat
deriving DecidableEq

/-- `(now - _cache_time).seconds` for `now ≥ cache_time`: the *seconds
component* of the Python `timedelta`, i.e. the age modulo one day, not
the total age in seconds. -/
def deltaSeconds (now t : Nat) : Nat := (now - t) % 86400

/-- The refresh condition of `get_recent_titles_cached`:
`_recent_titles_cache is None or _cache_time is None or
(now - _cache_time).seconds > 300`. -/
def cacheStale (st : CacheState) (now : Nat) : Bool :=
  st.recent_titles_cache.isNone || st.cache_time.isNone ||
    decide (300 < deltaSeconds now (st.cache_time.getD 0))

/-- `get_recent_titles_cached`: serve the in-memory snapshot, first
replacing it from storage when the refresh condition holds.  The storage
query (`get_connection` + `get_recent_titles_for_dedup`) is an external
call modelled by its outcome `q`; a failing query raises, propagating as
`Except.error` and leaving the module state unchanged. -/
def get_recent_titles_cached (q : Except Text (List CachedTitle)) (now : Nat)
    (st : CacheState) : Except Text (List CachedTitle × CacheState) :=
  if cacheStale st now then
    match q with
    | .error e => .error e
    | .ok rows => .ok (rows, ⟨some rows, some now⟩)
  else .ok (st.recent_titles_cache.getD [], st)

/-- A stored `news` row as seen by the dedup query. -/
structure StoredRow where
  id : Nat
  title : Text
  description : Text
  fetched_at : Nat

/-- Rows ordered most-recent-first (`ORDER BY fetched_at DESC`). -/
def rowRecentFirst (a b : StoredRow) : Prop := b.fetched_at ≤ a.fetched_at

instance : DecidableRel rowRecentFirst := fun a b => by
  unfold rowRecentFirst; infer_instance

/-- `get_recent_titles_for_dedup`: the storage query `SELECT id, title,
description FROM news WHERE fetched_at > now - interval ORDER BY
fetched_at DESC LIMIT 1000`, modelled over a list of stored rows with
`fetched_at` in seconds. -/
def get_recent_titles_for_dedup (storage : List StoredRow) (now : Nat)
    (hours : Nat) : List CachedTitle :=
  (((storage.filter (fun r => decide (now - hours * 3600 < r.fetched_at))).insertionSort
      rowRecentFirst).take 1000).map fun r => ⟨r.id, r.title, r.description⟩

/-- A raw feed entry, post-`feedparser`: the fields `process_feed`
reads.  `contentVal` is `entry["content"][0]["value"]` when present;
`published` is the already-parsed date (`parse_date` wraps the external
`dateutil` parser and yields `none` on failure). -/
structure FeedEntry where
  title : Text
  link : Text
  summary : Text
  description : Text
  contentVal : Option Text
  author : Text
  published : Option Nat

/-- The per-source stats dictionary of `process_feed` (`source_id` and
`source_name` are copied through unchanged and omitted here). -/
structure SourceStats where
  success : Bool
  news_count : Nat
  new_count : Nat
  skipped_count : Nat
  duplicate_count : Nat
  error : Option Text
deriving DecidableEq

/-- `re.sub(r'<[^>]+>', '', text)`: drop `<...>` runs with at least one
character between the brackets; a `<` with no such closing `>` is kept.
Fuel-indexed scan. -/
def stripTags : Nat → Text → Text
  | 0, _ => []
  | _, [] => []
  | fuel + 1, c :: cs =>
    if c == 60 then
      match cs with
      | [] => [60]
      | d :: _ =>
        if d == 62 then 60 :: stripTags fuel cs
        else if (cs.dropWhile (fun e => !(e == 62))).isEmpty then
          60 :: stripTags fuel cs
        else stripTags fuel (cs.dropWhile (fun e => !(e == 62))).tail
    else c :: stripTags fuel cs

/-- `clean_html`: strip tags, then collapse whitespace runs to single
spaces and strip the ends (`re.sub(r'\s+', ' ', ...)` followed by
`.strip()` equals re-joining the whitespace-split tokens). -/
def clean_html (t : Text) : Text :=
  if t.isEmpty then []
  else joinSpace (pySplit (stripTags (t.length + 1) t))

/-- The loop state of the entry loop in `process_feed`: the stats so
far, the shared in-memory candidate list (`recent_titles` aliases the
module cache, so `add_to_cache` appends are visible to later entries),
and the number of `insert_news` calls made. -/
structure FeedLoopState where
  stats : SourceStats
  recent : List CachedTitle
  inserts : Nat

/-- One iteration of the entry loop of `process_feed`.  `insertRes k` is
the id returned by the `k`-th `insert_news` call (`none` when the link
was already present); the row data passed to storage is otherwise
external.  The Python truthiness tests `if duplicate_id:` and
`if news_id:` treat both `None` and `0` as false. -/
def processEntry (h : Text → Text) (pos neg : List Text)
    (insertRes : Nat → Option Nat) (s : FeedLoopState) (entry : FeedEntry) :
    FeedLoopState :=
  let title := clean_html entry.title
  if title.isEmpty || entry.link.isEmpty then s
  else
    let description := clean_html
      (if entry.summary.isEmpty then entry.description else entry.summary)
    let dup := is_duplicate h title description s.recent (3 / 5)
    if dup.getD 0 ≠ 0 then
      { s with stats := { s.stats with duplicate_count := s.stats.duplicate_count + 1 } }
    else if (calculate_priority title description pos neg).1 < 0 then
      { s with stats := { s.stats with skipped_count := s.stats.skipped_count + 1 } }
    else
      match insertRes s.inserts with
      | some news_id =>
        if news_id ≠ 0 then
          { stats := { s.stats with new_count := s.stats.new_count + 1 },
            recent := s.recent ++ [⟨news_id, title, description⟩],
            inserts := s.inserts + 1 }
        else { s with inserts := s.inserts + 1 }
      | none => { s with inserts := s.inserts + 1 }

/-- `process_feed` for one source: fetch (outcome `feedResult`), load
the candidate cache, loop over the entries, with the whole body in a
`try` whose handler records the error in the stats.  Returns the stats
and the module cache state afterwards (`update_source_fetch` is an
external write-only call). -/
def process_feed (h : Text → Text) (pos neg : List Text)
    (feedResult : Except Text (List FeedEntry))
    (q : Except Text (List CachedTitle)) (now : Nat) (st : CacheState)
    (insertRes : Nat → Option Nat) : SourceStats × CacheState :=
  match feedResult with
  | .error e =>
    (⟨false, 0, 0, 0, 0, some e⟩, st)
  | .ok entries =>
    match get_recent_titles_cached q now st with
    | .error e =>
      (⟨false, entries.length, 0, 0, 0, some e⟩, st)
    | .ok (recent, st') =>
      let final := entries.foldl (processEntry h pos neg insertRes)
        ⟨⟨false, entries.length, 0, 0, 0, none⟩, recent, 0⟩
      ({ final.stats with success := true }, ⟨some final.recent, st'.cache_time⟩)

/-- Concrete two-item group for the selection witness. -/
def sampleGroup : List NewsItem :=
  [⟨chars "first title", [], chars "xx", 2⟩, ⟨chars "second title", [], [], 1⟩]

/-- Concrete items whose similarity is exactly 1/3 (token sets
{alpha, bravo} and {alpha, charlie}; no entities). -/
def itemAlphaBravo : NewsItem := ⟨chars "alpha bravo", [], [], 0⟩

/-- See `itemAlphaBravo`. -/
def itemAlphaCharlie : NewsItem := ⟨chars "alpha charlie", [], [], 0⟩

/-- A stale cache state whose snapshot already contains the test
title. -/
def staleState : CacheState := ⟨some [⟨5, chars "Inflation rises", []⟩], some 0⟩

/-- A feed entry whose title is already in the snapshot. -/
def feedEntryInflation : FeedEntry :=
  ⟨chars "Inflation rises", chars "x", [], [], none, [], none⟩

/-- A snapshot refreshed exactly one day before the lookup. -/
def dayOldState : CacheState := ⟨some [], some 0⟩

/-! ## Verification -/

example :
    extract_key_entities (chars "Fed Raises Interest Rates by 0.25% ") =
      [chars "0.25%", chars "Raises", chars "Interest", chars "Rates"] := by decide

example :
    extract_key_entities (chars "Federal Reserve increases interest rates by 0.25 percent ") =
      [chars "0.25", chars "Reserve"] := by decide

theorem fed_similarity_value :
    calculate_similarity_score (chars "Fed Raises Interest Rates by 0.25%")
      (chars "Federal Reserve increases interest rates by 0.25 percent") [] [] =
      1 / 10 := by
  have h1 : (pySplit (normalize_text
      (chars "Fed Raises Interest Rates by 0.25%" ++ 32 :: ([] : Text)))).dedup =
      [chars "fed", chars "interest", chars "raises", chars "rates"] := by decide
  have h2 : (pySplit (normalize_text
      (chars "Federal Reserve increases interest rates by 0.25 percent" ++ 32 :: ([] : Text)))).dedup =
      [chars "federal", chars "increases", chars "interest", chars "percent",
       chars "rates", chars "reserve"] := by decide
  have e1 : extract_key_entities
      (chars "Fed Raises Interest Rates by 0.25%" ++ 32 :: ([] : Text)) =
      [chars "0.25%", chars "Raises", chars "Interest", chars "Rates"] := by decide
  have e2 : extract_key_entities
      (chars "Federal Reserve increases interest rates by 0.25 percent" ++ 32 :: ([] : Text)) =
      [chars "0.25", chars "Reserve"] := by decide
  have hI : ([chars "fed", chars "interest", chars "raises", chars "rates"].filter
      (fun w => [chars "federal", chars "increases", chars "interest", chars "percent",
        chars "rates", chars "reserve"].contains w)).length = 2 := by decide
  have hU : ([chars "federal", chars "increases", chars "interest", chars "percent",
      chars "rates", chars "reserve"].filter
      (fun w => !([chars "fed", chars "interest", chars "raises", chars "rates"].contains w))).length
      = 4 := by decide
  have hE : ([chars "0.25%", chars "Raises", chars "Interest", chars "Rates"].filter
      (fun e => [chars "0.25", chars "Reserve"].contains e)).length = 0 := by decide
  simp only [calculate_similarity_score, h1, h2, e1, e2, hI, hU, hE,
    List.length_cons, List.length_nil, List.isEmpty_cons, List.isEmpty_nil]
  norm_num

example :
    normalize_text (chars "Fed Raises Interest Rates by 0.25%") =
      chars "fed interest raises rates" := by decide

example :
    normalize_text (chars "Federal Reserve increases interest rates by 0.25 percent") =
      chars "federal increases interest percent rates reserve" := by decide

example :
    normalize_text (chars "Visit https://example.com/x now! The covid19 data 2024") =
      chars "covid19 data visit" := by decide

theorem word_not_space {c : Nat} (h : isWordChar c = true) : isPySpace c = false := by
  simp only [isWordChar, isUpperCode, isLowerCode, isDigitCode, Bool.or_eq_true,
    Bool.and_eq_true, decide_eq_true_eq, beq_iff_eq] at h
  simp only [isPySpace, Bool.or_eq_false_iff, beq_eq_false_iff_ne, ne_eq]
  omega

theorem space_not_digit {c : Nat} (h : isPySpace c = true) : isDigitCode c = false := by
  simp only [isPySpace, Bool.or_eq_true, beq_iff_eq] at h
  simp only [isDigitCode, Bool.and_eq_false_iff, decide_eq_false_iff_not]
  omega

theorem space_not_word {c : Nat} (h : isPySpace c = true) : isWordChar c = false := by
  simp only [isPySpace, Bool.or_eq_true, beq_iff_eq] at h
  simp only [isWordChar, isUpperCode, isLowerCode, isDigitCode, Bool.or_eq_false_iff,
    Bool.and_eq_false_iff, decide_eq_false_iff_not, beq_eq_false_iff_ne, ne_eq]
  omega

theorem digit_word {c : Nat} (h : isDigitCode c = true) : isWordChar c = true := by
  simp [isWordChar, h]

theorem lowerChar_idem (c : Nat) : lowerChar (lowerChar c) = lowerChar c := by
  by_cases h : isUpperCode c = true
  · have h' : ¬ isUpperCode (c + 32) = true := by
      simp only [isUpperCode, Bool.and_eq_true, decide_eq_true_eq] at h ⊢
      omega
    simp [lowerChar, h, h']
  · simp [lowerChar, h]

theorem lowered_of_mem_lowerText {c : Nat} {t : Text} (h : c ∈ lowerText t) :
    lowerChar c = c := by
  rcases List.mem_map.1 h with ⟨d, _, he⟩
  exact he ▸ lowerChar_idem d

theorem lowerText_fixed {v : Text} (h : ∀ c ∈ v, lowerChar c = c) : lowerText v = v := by
  induction v with
  | nil => rfl
  | cons c v ih =>
    simp only [lowerText, List.map_cons] at ih ⊢
    rw [h c (List.mem_cons_self _ _), ih fun d hd => h d (List.mem_cons_of_mem _ hd)]

theorem urlStart_mem_colon {t : Text} (h : urlStart t = true) : 58 ∈ t := by
  simp only [urlStart, Bool.or_eq_true, Bool.and_eq_true] at h
  rcases h with ⟨hp, _⟩ | ⟨hp, _⟩ <;>
    exact ((List.isPrefixOf_iff_prefix.mp hp).sublist).mem (by decide)

theorem stripURLs_id {t : Text} (h : ∀ c ∈ t, c ≠ 58) : stripURLs t false = t := by
  induction t with
  | nil => rfl
  | cons d t ih =>
    have hu : ¬ urlStart (d :: t) = true := fun hc => h 58 (urlStart_mem_colon hc) rfl
    rw [stripURLs, if_neg hu]
    exact congrArg (d :: ·) (ih fun c hc => h c (List.mem_cons_of_mem _ hc))

theorem punctToSpace_id {t : Text}
    (h : ∀ c ∈ t, isWordChar c = true ∨ isPySpace c = true) : punctToSpace t = t := by
  induction t with
  | nil => rfl
  | cons c t ih =>
    have hc : (isWordChar c || isPySpace c) = true := by
      rcases h c (List.mem_cons_self _ _) with h' | h' <;> simp [h']
    simp only [punctToSpace, List.map_cons] at ih ⊢
    rw [if_pos hc, ih fun d hd => h d (List.mem_cons_of_mem _ hd)]

theorem rmIso_cons_space {c : Nat} (hc : isPySpace c = true) (t : Text) (p : Bool) :
    rmIsoNums (c :: t) p [] = c :: rmIsoNums t false [] := by
  simp only [rmIsoNums, space_not_digit hc, Bool.false_and, Bool.false_eq_true,
    if_false, space_not_word hc]

theorem rmIso_word_run {w : Text} (hw : ∀ c ∈ w, isWordChar c = true) :
    ∀ r, rmIsoNums (w ++ r) true [] = w ++ rmIsoNums r true []
  | r => by
    induction w with
    | nil => simp
    | cons c w ih =>
      have hc := hw c (List.mem_cons_self _ _)
      rw [List.cons_append]
      simp only [rmIsoNums, Bool.not_true, Bool.and_false, Bool.false_eq_true, if_false, hc]
      rw [ih fun d hd => hw d (List.mem_cons_of_mem _ hd), List.cons_append]

theorem rmIso_digit_run {d : Text} (hd : ∀ c ∈ d, isDigitCode c = true) :
    ∀ (r : Text) (p : Bool) (b : Nat) (bs : Text),
      rmIsoNums (d ++ r) p (b :: bs) = rmIsoNums r p ((b :: bs) ++ d) := by
  induction d with
  | nil => intro r p b bs; simp
  | cons c d ih =>
    intro r p b bs
    have hc := hd c (List.mem_cons_self _ _)
    rw [List.cons_append, rmIsoNums, if_pos hc]
    have := ih (fun e he => hd e (List.mem_cons_of_mem _ he)) r p b (bs ++ [c])
    simpa using this

theorem rmIso_state {r : Text}
    (hr : r = [] ∨ ∃ c cs, r = c :: cs ∧ isPySpace c = true) :
    rmIsoNums r true [] = rmIsoNums r false [] := by
  rcases hr with rfl | ⟨c, cs, rfl, hc⟩
  · rfl
  · rw [rmIsoNums, rmIsoNums, if_neg (by simp [space_not_digit hc]),
      if_neg (by simp [space_not_digit hc])]

theorem dropWhile_head_false {p : Nat → Bool} :
    ∀ {l : List Nat} {c : Nat} {cs : List Nat}, l.dropWhile p = c :: cs → p c = false := by
  intro l
  induction l with
  | nil => intro c cs h; simp at h
  | cons d t ih =>
    intro c cs h
    rw [List.dropWhile_cons] at h
    split at h
    · exact ih h
    · rename_i hd
      cases h
      simpa using hd

theorem rmIso_token_keep {w : Text} (hword : ∀ c ∈ w, isWordChar c = true)
    (hnd : w.all isDigitCode = false) {r : Text}
    (hr : r = [] ∨ ∃ c cs, r = c :: cs ∧ isPySpace c = true) :
    rmIsoNums (w ++ r) false [] = w ++ rmIsoNums r false [] := by
  have hdec := (List.takeWhile_append_dropWhile isDigitCode w).symm
  rcases hrest : w.dropWhile isDigitCode with _ | ⟨c, w'⟩
  · exfalso
    have : ∀ c ∈ w, isDigitCode c = true := by
      simpa using List.dropWhile_eq_nil_iff.mp hrest
    rw [List.all_eq_true.mpr (by intro c hc; simpa using this c hc)] at hnd
    simp at hnd
  · have hc : isDigitCode c = false := dropWhile_head_false hrest
    have hcw : isWordChar c = true := by
      refine hword c ?_
      have : c ∈ w.dropWhile isDigitCode := by rw [hrest]; exact List.mem_cons_self _ _
      exact (List.dropWhile_sublist _).mem this
    have hw' : ∀ d ∈ w', isWordChar d = true := by
      intro d hd
      refine hword d ?_
      have : d ∈ w.dropWhile isDigitCode := by
        rw [hrest]; exact List.mem_cons_of_mem _ hd
      exact (List.dropWhile_sublist _).mem this
    have hdig : ∀ e ∈ w.takeWhile isDigitCode, isDigitCode e = true :=
      fun e he => List.mem_takeWhile_imp he
    rw [hrest] at hdec
    rcases htk : w.takeWhile isDigitCode with _ | ⟨e, d'⟩
    · rw [htk] at hdec
      simp only [List.nil_append] at hdec
      subst hdec
      rw [List.cons_append, rmIsoNums, if_neg (by simp [hc]), hcw,
        rmIso_word_run hw' r, rmIso_state hr, List.cons_append]
    · rw [htk] at hdec hdig
      subst hdec
      rw [List.append_assoc, List.cons_append, rmIsoNums,
        if_pos (by simp [hdig e (List.mem_cons_self _ _)]),
        rmIso_digit_run (fun x hx => hdig x (List.mem_cons_of_mem _ hx)) _ _ _ _]
      simp only [List.singleton_append]
      rw [List.cons_append, rmIsoNums]
      rw [if_neg (by simp [hc]), if_pos hcw]
      rw [rmIso_word_run hw' r, rmIso_state hr]
      simp

theorem rmIso_token_drop {w : Text} (hne : w ≠ [])
    (hd : ∀ c ∈ w, isDigitCode c = true) {r : Text}
    (hr : r = [] ∨ ∃ c cs, r = c :: cs ∧ isPySpace c = true) :
    rmIsoNums (w ++ r) false [] = rmIsoNums r false [] := by
  rcases w with _ | ⟨e, d'⟩
  · simp at hne
  · rw [List.cons_append, rmIsoNums, if_pos (by simp [hd e (List.mem_cons_self _ _)]),
      rmIso_digit_run (fun x hx => hd x (List.mem_cons_of_mem _ hx)) _ _ _ _]
    simp only [List.singleton_append]
    rcases hr with rfl | ⟨c, cs, rfl, hc⟩
    · rfl
    · rw [rmIsoNums, rmIsoNums]
      simp [space_not_digit hc, space_not_word hc]

theorem splitGo_append_word {w : Text} (hw : ∀ c ∈ w, isPySpace c = false) :
    ∀ (t acc : Text), splitGo (w ++ t) acc = splitGo t (acc ++ w) := by
  induction w with
  | nil => intro t acc; simp
  | cons c w ih =>
    intro t acc
    have hc := hw c (List.mem_cons_self _ _)
    rw [List.cons_append, splitGo, if_neg (by simp [hc]),
      ih (fun d hd => hw d (List.mem_cons_of_mem _ hd)) t (acc ++ [c])]
    simp

theorem pySplit_cons_space {c : Nat} (hc : isPySpace c = true) (t : Text) :
    pySplit (c :: t) = pySplit t := by
  simp [pySplit, splitGo, hc]

theorem splitGo_end {w : Text} (hne : w ≠ []) : splitGo [] w = [w] := by
  rw [splitGo, if_neg (by simpa [List.isEmpty_iff] using hne)]

theorem splitGo_emit {c : Nat} {t w : Text} (hc : isPySpace c = true) (hne : w ≠ []) :
    splitGo (c :: t) w = w :: splitGo t [] := by
  rw [splitGo, if_pos hc, if_neg (by simpa [List.isEmpty_iff] using hne)]

theorem pySplit_token_prefix {w : Text} (hne : w ≠ [])
    (hw : ∀ c ∈ w, isPySpace c = false) {v : Text}
    (hv : v = [] ∨ ∃ c cs, v = c :: cs ∧ isPySpace c = true) :
    pySplit (w ++ v) = w :: pySplit v := by
  rw [pySplit, splitGo_append_word hw v [], List.nil_append]
  rcases hv with rfl | ⟨c, cs, rfl, hc⟩
  · rw [splitGo_end hne]; rfl
  · rw [splitGo_emit hc hne, pySplit_cons_space hc]; rfl

theorem pySplit_joinSpace :
    ∀ {ws : List Text}, (∀ w ∈ ws, w ≠ [] ∧ ∀ c ∈ w, isPySpace c = false) →
      pySplit (joinSpace ws) = ws
  | [], _ => rfl
  | [w], h => by
    have hw := h w (List.mem_singleton_self w)
    rw [show joinSpace [w] = w from rfl]
    have := pySplit_token_prefix hw.1 hw.2 (Or.inl rfl)
    simpa [pySplit, splitGo] using this
  | w :: w2 :: ws, h => by
    have hw := h w (List.mem_cons_self _ _)
    rw [show joinSpace (w :: w2 :: ws) = w ++ 32 :: joinSpace (w2 :: ws) from rfl,
      pySplit_token_prefix hw.1 hw.2 (Or.inr ⟨32, _, rfl, by decide⟩),
      pySplit_cons_space (by decide),
      pySplit_joinSpace (fun u hu => h u (List.mem_cons_of_mem _ hu))]

theorem rmIso_joinSpace :
    ∀ {ws : List Text},
      (∀ w ∈ ws, (∀ c ∈ w, isWordChar c = true) ∧ w.all isDigitCode = false) →
      rmIsoNums (joinSpace ws) false [] = joinSpace ws
  | [], _ => rfl
  | [w], h => by
    have hw := h w (List.mem_singleton_self w)
    rw [show joinSpace [w] = w from rfl]
    have := rmIso_token_keep hw.1 hw.2 (Or.inl rfl)
    simpa [rmIsoNums] using this
  | w :: w2 :: ws, h => by
    have hw := h w (List.mem_cons_self _ _)
    rw [show joinSpace (w :: w2 :: ws) = w ++ 32 :: joinSpace (w2 :: ws) from rfl,
      rmIso_token_keep hw.1 hw.2 (Or.inr ⟨32, _, rfl, by decide⟩),
      rmIso_cons_space (by decide),
      rmIso_joinSpace (fun u hu => h u (List.mem_cons_of_mem _ hu))]

/-- Token-level characterization of isolated-number removal: on text made
of word characters and whitespace, it deletes exactly the all-digit
tokens. -/
theorem tokens_rmIso :
    ∀ (n : Nat) (u : Text), u.length ≤ n →
      (∀ c ∈ u, isWordChar c = true ∨ isPySpace c = true) →
      pySplit (rmIsoNums u false []) =
        (pySplit u).filter (fun w => !w.all isDigitCode) := by
  intro n
  induction n with
  | zero =>
    intro u hu _
    have : u = [] := List.length_eq_zero.mp (Nat.le_zero.mp hu)
    subst this; rfl
  | succ n ih =>
    intro u hu hclass
    rcases u with _ | ⟨c, u'⟩
    · rfl
    · by_cases hs : isPySpace c = true
      · rw [rmIso_cons_space hs, pySplit_cons_space hs, pySplit_cons_space hs]
        exact ih u' (by simpa using Nat.succ_le_succ_iff.mp hu)
          fun d hd => hclass d (List.mem_cons_of_mem _ hd)
      · have hcw : isWordChar c = true :=
          (hclass c (List.mem_cons_self _ _)).resolve_right hs
        set w := (c :: u').takeWhile isWordChar with hwdef
        set r := (c :: u').dropWhile isWordChar with hrdef
        have hdec : w ++ r = c :: u' := by
          rw [hwdef, hrdef]; exact List.takeWhile_append_dropWhile _ _
        have hwne : w ≠ [] := by
          rw [hwdef, List.takeWhile_cons, if_pos hcw]
          simp
        have hwword : ∀ d ∈ w, isWordChar d = true :=
          fun d hd => List.mem_takeWhile_imp hd
        have hwnospace : ∀ d ∈ w, isPySpace d = false :=
          fun d hd => word_not_space (hwword d hd)
        have hrclass : ∀ d ∈ r, isWordChar d = true ∨ isPySpace d = true :=
          fun d hd => hclass d ((List.dropWhile_sublist _).mem hd)
        have hrsp : r = [] ∨ ∃ d ds, r = d :: ds ∧ isPySpace d = true := by
          rcases hr2 : r with _ | ⟨d, ds⟩
          · exact Or.inl rfl
          · refine Or.inr ⟨d, ds, rfl, ?_⟩
            have hdw : isWordChar d = false := by
              refine @dropWhile_head_false isWordChar (c :: u') d ds ?_
              rw [← hrdef, hr2]
            have := hrclass d (by rw [hr2]; exact List.mem_cons_self _ _)
            rcases this with h | h
            · rw [hdw] at h; exact absurd h (by simp)
            · exact h
        have hlen : r.length ≤ n := by
          have hsum : w.length + r.length = u'.length + 1 := by
            rw [← List.length_append, hdec]; rfl
          have hw1 : 1 ≤ w.length := List.length_pos.mpr hwne
          have : u'.length + 1 ≤ n + 1 := hu
          omega
        rw [← hdec]
        by_cases hall : w.all isDigitCode = true
        · have hdigits : ∀ d ∈ w, isDigitCode d = true := by
            intro d hd; exact List.all_eq_true.mp hall d hd
          rw [rmIso_token_drop hwne hdigits hrsp, ih r hlen hrclass,
            pySplit_token_prefix hwne hwnospace hrsp, List.filter_cons]
          simp [hall]
        · have hallf : w.all isDigitCode = false := by
            rcases Bool.eq_false_or_eq_true (w.all isDigitCode) with h | h
            · exact absurd h hall
            · exact h
          have hrm : rmIsoNums r false [] = [] ∨
              ∃ d ds, rmIsoNums r false [] = d :: ds ∧ isPySpace d = true := by
            rcases hrsp with hre | ⟨d, ds, hr2, hd⟩
            · rw [hre]; exact Or.inl rfl
            · rw [hr2, rmIso_cons_space hd]
              exact Or.inr ⟨d, _, rfl, hd⟩
          rw [rmIso_token_keep hwword hallf hrsp,
            pySplit_token_prefix hwne hwnospace hrm, ih r hlen hrclass,
            pySplit_token_prefix hwne hwnospace hrsp, List.filter_cons]
          simp [hallf]

theorem wordLE_total : ∀ a b : Text, wordLE a b = true ∨ wordLE b a = true
  | [], _ => by left; rfl
  | _ :: _, [] => by right; rfl
  | x :: xs, y :: ys => by
    rcases Nat.lt_trichotomy x y with h | h | h
    · left; simp [wordLE, h]
    · subst h
      rcases wordLE_total xs ys with ih | ih <;>
        [left; right] <;> simpa [wordLE] using ih
    · right; simp [wordLE, h]

theorem wordLE_trans :
    ∀ a b c : Text, wordLE a b = true → wordLE b c = true → wordLE a c = true
  | [], _, _, _, _ => rfl
  | _ :: _, [], _, hab, _ => by simp [wordLE] at hab
  | _ :: _, _ :: _, [], _, hbc => by simp [wordLE] at hbc
  | x :: xs, y :: ys, z :: zs, hab, hbc => by
    simp only [wordLE] at hab hbc ⊢
    rcases Nat.lt_trichotomy x y with h1 | h1 | h1
    · rcases Nat.lt_trichotomy y z with h2 | h2 | h2
      · simp [Nat.lt_trans h1 h2]
      · subst h2; simp [h1]
      · simp [h2, Nat.lt_asymm h2] at hbc
    · subst h1
      rcases Nat.lt_trichotomy x z with h2 | h2 | h2
      · simp [h2]
      · subst h2
        simp only [Nat.lt_irrefl, if_false] at hab hbc ⊢
        exact wordLE_trans _ _ _ hab hbc
      · simp [h2, Nat.lt_asymm h2] at hbc
    · simp [h1, Nat.lt_asymm h1] at hab

instance : IsTotal Text wordLEP := ⟨fun a b => wordLE_total a b⟩

instance : IsTrans Text wordLEP := ⟨fun a b c => wordLE_trans a b c⟩

theorem mem_stripURLs {c : Nat} : ∀ {t : Text} {m : Bool}, c ∈ stripURLs t m → c ∈ t := by
  intro t
  induction t with
  | nil => intro m h; cases m <;> simp [stripURLs] at h
  | cons d t ih =>
    intro m h
    cases m with
    | true =>
      simp only [stripURLs] at h
      split at h
      · rcases List.mem_cons.1 h with h | h
        · simp [h]
        · exact List.mem_cons_of_mem _ (ih h)
      · exact List.mem_cons_of_mem _ (ih h)
    | false =>
      simp only [stripURLs] at h
      split at h
      · exact List.mem_cons_of_mem _ (ih h)
      · rcases List.mem_cons.1 h with h | h
        · simp [h]
        · exact List.mem_cons_of_mem _ (ih h)

theorem mem_punctToSpace {c : Nat} {t : Text} (h : c ∈ punctToSpace t) :
    c ∈ t ∨ c = 32 := by
  rcases List.mem_map.1 h with ⟨d, hd, he⟩
  by_cases hw : (isWordChar d || isPySpace d) = true
  · rw [if_pos hw] at he; exact Or.inl (he ▸ hd)
  · rw [if_neg hw] at he; exact Or.inr he.symm

theorem punctToSpace_class {c : Nat} {t : Text} (h : c ∈ punctToSpace t) :
    isWordChar c = true ∨ isPySpace c = true := by
  rcases List.mem_map.1 h with ⟨d, _, he⟩
  by_cases hw : (isWordChar d || isPySpace d) = true
  · rw [if_pos hw] at he
    subst he
    simpa using hw
  · rw [if_neg hw] at he
    right; rw [← he]; decide

theorem mem_rmIsoNums {c : Nat} :
    ∀ {t : Text} {p : Bool} {buf : Text}, c ∈ rmIsoNums t p buf → c ∈ t ∨ c ∈ buf := by
  intro t
  induction t with
  | nil => intro p buf h; simp [rmIsoNums] at h
  | cons d t ih =>
    intro p buf h
    match buf with
    | [] =>
      simp only [rmIsoNums] at h
      split at h
      · rcases ih h with h | h
        · exact Or.inl (List.mem_cons_of_mem _ h)
        · simp only [List.mem_singleton] at h
          exact Or.inl (by simp [h])
      · rcases List.mem_cons.1 h with h | h
        · exact Or.inl (by simp [h])
        · rcases ih h with h | h
          · exact Or.inl (List.mem_cons_of_mem _ h)
          · simp at h
    | b :: bs =>
      simp only [rmIsoNums] at h
      split at h
      · rcases ih h with h | h
        · exact Or.inl (List.mem_cons_of_mem _ h)
        · rcases List.mem_append.1 h with h | h
          · exact Or.inr h
          · simp only [List.mem_singleton] at h
            exact Or.inl (by simp [h])
      · split at h
        · rcases List.mem_append.1 h with h | h
          · exact Or.inr h
          · rcases List.mem_cons.1 h with h | h
            · exact Or.inl (by simp [h])
            · rcases ih h with h | h
              · exact Or.inl (List.mem_cons_of_mem _ h)
              · simp at h
        · rcases List.mem_cons.1 h with h | h
          · exact Or.inl (by simp [h])
          · rcases ih h with h | h
            · exact Or.inl (List.mem_cons_of_mem _ h)
            · simp at h

theorem splitGo_token_sound {c : Nat} {w : Text} (hc : c ∈ w) :
    ∀ {t acc : Text}, w ∈ splitGo t acc → c ∈ t ∨ c ∈ acc := by
  intro t
  induction t with
  | nil =>
    intro acc hw
    simp only [splitGo] at hw
    split at hw
    · simp at hw
    · simp only [List.mem_singleton] at hw
      exact Or.inr (hw ▸ hc)
  | cons d t ih =>
    intro acc hw
    simp only [splitGo] at hw
    split at hw
    · split at hw
      · rcases ih hw with h | h
        · exact Or.inl (List.mem_cons_of_mem _ h)
        · simp at h
      · rcases List.mem_cons.1 hw with hw | hw
        · exact Or.inr (hw ▸ hc)
        · rcases ih hw with h | h
          · exact Or.inl (List.mem_cons_of_mem _ h)
          · simp at h
    · rcases ih hw with h | h
      · exact Or.inl (List.mem_cons_of_mem _ h)
      · rcases List.mem_append.1 h with h | h
        · exact Or.inr h
        · simp only [List.mem_singleton] at h
          exact Or.inl (by simp [h])

theorem splitGo_token_not_space {c : Nat} {w : Text} (hc : c ∈ w) :
    ∀ {t acc : Text}, w ∈ splitGo t acc → (∀ b ∈ acc, isPySpace b = false) →
      isPySpace c = false := by
  intro t
  induction t with
  | nil =>
    intro acc hw hacc
    simp only [splitGo] at hw
    split at hw
    · simp at hw
    · simp only [List.mem_singleton] at hw
      exact hacc c (hw ▸ hc)
  | cons d t ih =>
    intro acc hw hacc
    simp only [splitGo] at hw
    split at hw
    · split at hw
      · exact ih hw (by simp)
      · rcases List.mem_cons.1 hw with hw | hw
        · exact hacc c (hw ▸ hc)
        · exact ih hw (by simp)
    · rename_i hs
      refine ih hw ?_
      intro b hb
      rcases List.mem_append.1 hb with h | h
      · exact hacc b h
      · simp only [List.mem_singleton] at h
        subst h
        simpa using hs

theorem splitGo_token_ne_nil {w : Text} :
    ∀ {t acc : Text}, w ∈ splitGo t acc → w ≠ [] := by
  intro t
  induction t with
  | nil =>
    intro acc hw
    simp only [splitGo] at hw
    split at hw
    · simp at hw
    · rename_i ha
      simp only [List.mem_singleton] at hw
      subst hw
      simpa [List.isEmpty_iff] using ha
  | cons d t ih =>
    intro acc hw
    simp only [splitGo] at hw
    split at hw
    · split at hw
      · exact ih hw
      · rename_i ha
        rcases List.mem_cons.1 hw with hw | hw
        · subst hw; simpa [List.isEmpty_iff] using ha
        · exact ih hw
    · exact ih hw

theorem mem_joinSpace {c : Nat} :
    ∀ {ws : List Text}, c ∈ joinSpace ws → (∃ w ∈ ws, c ∈ w) ∨ c = 32
  | [], h => by simp [joinSpace] at h
  | [w], h => by
    left; exact ⟨w, List.mem_singleton_self _, by simpa [joinSpace] using h⟩
  | w :: w' :: ws, h => by
    simp only [joinSpace, List.mem_append, List.mem_cons] at h
    rcases h with h | h | h
    · exact Or.inl ⟨w, List.mem_cons_self _ _, h⟩
    · exact Or.inr h
    · rcases @mem_joinSpace c (w' :: ws) h with ⟨u, hu, hc⟩ | h
      · exact Or.inl ⟨u, List.mem_cons_of_mem _ hu, hc⟩
      · exact Or.inr h

theorem joinSpace_ne_nil {w : Text} (hw : w ≠ []) (ws : List Text) :
    joinSpace (w :: ws) ≠ [] := by
  cases ws with
  | nil => simpa [joinSpace] using hw
  | cons w2 ws =>
    rw [show joinSpace (w :: w2 :: ws) = w ++ 32 :: joinSpace (w2 :: ws) from rfl]
    simp

theorem normalize_fixed {ws : List Text} (h : ∀ w ∈ ws, TokOK w)
    (hs : List.Sorted wordLEP ws) : normalize_text (joinSpace ws) = joinSpace ws := by
  rcases ws with _ | ⟨w0, ws'⟩
  · rfl
  · have hne : joinSpace (w0 :: ws') ≠ [] :=
      joinSpace_ne_nil (h w0 (List.mem_cons_self _ _)).1 ws'
    rw [normalize_text, if_neg (by simpa [List.isEmpty_iff] using hne)]
    have hv_tok : ∀ c ∈ joinSpace (w0 :: ws'), (∃ w ∈ w0 :: ws', c ∈ w) ∨ c = 32 :=
      fun c hc => mem_joinSpace hc
    have hfix : ∀ c ∈ joinSpace (w0 :: ws'), lowerChar c = c := by
      intro c hc
      rcases hv_tok c hc with ⟨w, hw, hcw⟩ | rfl
      · exact ((h w hw).2.1 c hcw).2
      · decide
    have hclass : ∀ c ∈ joinSpace (w0 :: ws'), isWordChar c = true ∨ isPySpace c = true := by
      intro c hc
      rcases hv_tok c hc with ⟨w, hw, hcw⟩ | rfl
      · exact Or.inl ((h w hw).2.1 c hcw).1
      · right; decide
    have hnocolon : ∀ c ∈ joinSpace (w0 :: ws'), c ≠ 58 := by
      intro c hc heq
      subst heq
      rcases hclass 58 hc with h' | h' <;> exact absurd h' (by decide)
    rw [lowerText_fixed hfix, stripURLs_id hnocolon, punctToSpace_id hclass,
      rmIso_joinSpace (fun w hw => ⟨fun c hc => ((h w hw).2.1 c hc).1, (h w hw).2.2.1⟩),
      pySplit_joinSpace
        (fun w hw => ⟨(h w hw).1, fun c hc => word_not_space ((h w hw).2.1 c hc).1⟩),
      List.filter_eq_self.mpr (fun w hw => (h w hw).2.2.2),
      List.Sorted.insertionSort_eq hs]

theorem normalize_output_ok (t : Text) :
    (∀ w ∈ List.insertionSort wordLEP (List.filter goodWord (pySplit (rmIsoNums
        (punctToSpace (stripURLs (lowerText t) false)) false []))), TokOK w) ∧
    List.Sorted wordLEP (List.insertionSort wordLEP (List.filter goodWord (pySplit (rmIsoNums
        (punctToSpace (stripURLs (lowerText t) false)) false [])))) := by
  constructor
  · intro w hw
    rw [List.mem_insertionSort] at hw
    have hgood : goodWord w = true := List.of_mem_filter hw
    have hw' : w ∈ pySplit (rmIsoNums (punctToSpace (stripURLs (lowerText t) false)) false []) :=
      List.mem_of_mem_filter hw
    have hclass_u : ∀ c ∈ punctToSpace (stripURLs (lowerText t) false),
        isWordChar c = true ∨ isPySpace c = true := fun c hc => punctToSpace_class hc
    refine ⟨splitGo_token_ne_nil hw', ?_, ?_, hgood⟩
    · intro c hc
      have hmem_rm : c ∈ rmIsoNums (punctToSpace (stripURLs (lowerText t) false)) false [] := by
        rcases splitGo_token_sound hc hw' with h' | h'
        · exact h'
        · simp at h'
      have hmem_u : c ∈ punctToSpace (stripURLs (lowerText t) false) := by
        rcases mem_rmIsoNums hmem_rm with h' | h'
        · exact h'
        · simp at h'
      have hnospace : isPySpace c = false := splitGo_token_not_space hc hw' (by simp)
      constructor
      · rcases punctToSpace_class hmem_u with h' | h'
        · exact h'
        · rw [hnospace] at h'; exact absurd h' (by simp)
      · rcases mem_punctToSpace hmem_u with h' | rfl
        · exact lowered_of_mem_lowerText (mem_stripURLs h')
        · decide
    · have hA := tokens_rmIso (punctToSpace (stripURLs (lowerText t) false)).length
        (punctToSpace (stripURLs (lowerText t) false)) le_rfl hclass_u
      rw [hA] at hw'
      have := List.of_mem_filter hw'
      simpa using this
  · exact List.sorted_insertionSort _ _

/-- C6: normalization is deterministic (it is a pure function of its
input by construction) and idempotent: for every text `t`,
`normalize_text (normalize_text t) = normalize_text t`. -/
theorem normalize_text_idempotent (t : Text) :
    normalize_text (normalize_text t) = normalize_text t := by
  by_cases ht : t.isEmpty = true
  · have h0 : normalize_text t = [] := by rw [normalize_text, if_pos ht]
    rw [h0]
    rfl
  · have hout := normalize_output_ok t
    rw [show normalize_text t = joinSpace (List.insertionSort wordLEP (List.filter goodWord
        (pySplit (rmIsoNums (punctToSpace (stripURLs (lowerText t) false)) false [])))) from by
      rw [normalize_text, if_neg ht]]
    exact normalize_fixed hout.1 hout.2

theorem priority_foldl_score (text ttl : Text) :
    ∀ (ks : List Text) (s : ℚ) (m : List Text),
      s ≤ (ks.foldl (fun acc kw => if pyIn kw text = true then
          (acc.1 + (if pyIn kw ttl = true then 2 else 1), acc.2 ++ [kw]) else acc)
        (s, m)).1
  | [], s, m => le_refl s
  | k :: ks, s, m => by
    rw [List.foldl_cons]
    by_cases hk : pyIn k text = true
    · rw [if_pos hk]
      refine le_trans ?_ (priority_foldl_score text ttl ks _ _)
      by_cases ht : pyIn k ttl = true
      · rw [if_pos ht]; linarith
      · rw [if_neg ht]; linarith
    · rw [if_neg hk]
      exact priority_foldl_score text ttl ks s m

theorem priority_foldl_matched (text ttl : Text) :
    ∀ (ks : List Text) (s : ℚ) (m : List Text),
      ∃ m', (ks.foldl (fun acc kw => if pyIn kw text = true then
          (acc.1 + (if pyIn kw ttl = true then 2 else 1), acc.2 ++ [kw]) else acc)
        (s, m)).2 = m ++ m' ∧ m'.Sublist ks
  | [], s, m => ⟨[], by simp⟩
  | k :: ks, s, m => by
    rw [List.foldl_cons]
    by_cases hk : pyIn k text = true
    · rw [if_pos hk]
      obtain ⟨m', hm', hsub⟩ := priority_foldl_matched text ttl ks
        (s + if pyIn k ttl = true then 2 else 1) (m ++ [k])
      exact ⟨k :: m', by simpa using hm', List.Sublist.cons₂ k hsub⟩
    · rw [if_neg hk]
      obtain ⟨m', hm', hsub⟩ := priority_foldl_matched text ttl ks s m
      exact ⟨m', hm', hsub.trans (List.sublist_cons_self k ks)⟩

/-- C2 counterexample: with negative keyword "SPONSORED" and title
"sponsored", the keyword *does* occur case-insensitively in the
concatenated title+description, yet the scorer returns `(0, [])`, not
`(-1, [])`: the code lower-cases the text but not the keyword, so the
match is case-sensitive on the keyword side. -/
theorem priority_not_case_insensitive :
    ciOccurs (chars "SPONSORED") (chars "sponsored") [] = true ∧
    calculate_priority (chars "sponsored") [] [] [chars "SPONSORED"] = (0, []) ∧
    ((0 : ℚ), ([] : List Text)) ≠ ((-1 : ℚ), ([] : List Text)) := by
  refine ⟨by decide, ?_, ?_⟩
  · have hneg : ([chars "SPONSORED"] : List Text).any
        (fun kw => pyIn kw (lowerText (chars "sponsored" ++ 32 :: ([] : Text)))) = false := by
      decide
    simp [calculate_priority, hneg]
  · intro h
    rw [Prod.ext_iff] at h
    norm_num at h

/-- C2 (amended): whenever a negative keyword occurs *verbatim* as a
substring of the lower-cased space-joined title+description (for
lower-case keywords this coincides with case-insensitive matching), the
scorer returns exactly `(-1.0, [])`, regardless of the positive
keywords. -/
theorem calculate_priority_negative_filter (title description : Text)
    (pos neg : List Text) (kw : Text) (hkw : kw ∈ neg)
    (hin : pyIn kw (lowerText (title ++ 32 :: description)) = true) :
    calculate_priority title description pos neg = (-1, []) := by
  have hany : neg.any (fun k => pyIn k (lowerText (title ++ 32 :: description))) = true :=
    List.any_eq_true.mpr ⟨kw, hkw, hin⟩
  simp [calculate_priority, hany]

/-- Witness for `calculate_priority_negative_filter` at a concrete input
where a positive keyword is also present. -/
theorem calculate_priority_negative_filter_witness :
    (chars "sponsored") ∈ [chars "sponsored"] ∧
    pyIn (chars "sponsored") (lowerText (chars "Sponsored post" ++ 32 :: chars "inflation data")) = true ∧
    calculate_priority (chars "Sponsored post") (chars "inflation data")
      [chars "inflation"] [chars "sponsored"] = (-1, []) :=
  ⟨by decide, by decide,
    calculate_priority_negative_filter (chars "Sponsored post") (chars "inflation data")
      [chars "inflation"] [chars "sponsored"] (chars "sponsored") (by decide) (by decide)⟩

/-- C10: the priority scorer returns either exactly `(-1, [])` or a
nonnegative score whose matched list is a subsequence of the positive
keyword list in that list's order; no score strictly between `-1` and
`0` (and none below `-1`) is ever produced, and the score is negative
exactly when some negative keyword occurs in the lower-cased text, so a
`score < 0` filter removes exactly the negative-keyword hits. -/
theorem calculate_priority_range (title description : Text) (pos neg : List Text) :
    (calculate_priority title description pos neg = (-1, []) ∨
      (0 ≤ (calculate_priority title description pos neg).1 ∧
        (calculate_priority title description pos neg).2.Sublist pos)) ∧
    ((calculate_priority title description pos neg).1 < 0 ↔
      neg.any (fun kw => pyIn kw (lowerText (title ++ 32 :: description))) = true) := by
  by_cases hneg : neg.any (fun kw => pyIn kw (lowerText (title ++ 32 :: description))) = true
  · have hval : calculate_priority title description pos neg = (-1, []) := by
      simp [calculate_priority, hneg]
    refine ⟨Or.inl hval, fun _ => hneg, fun _ => ?_⟩
    rw [hval]
    norm_num
  · have hres : calculate_priority title description pos neg =
        pos.foldl (fun acc kw =>
          if pyIn kw (lowerText (title ++ 32 :: description)) = true then
            (acc.1 + (if pyIn kw (lowerText title) = true then 2 else 1), acc.2 ++ [kw])
          else acc) (0, []) := by
      simp only [calculate_priority]
      rw [if_neg hneg]
    have h1 := priority_foldl_score (lowerText (title ++ 32 :: description))
      (lowerText title) pos 0 []
    obtain ⟨m', hm', hsub⟩ := priority_foldl_matched
      (lowerText (title ++ 32 :: description)) (lowerText title) pos 0 []
    constructor
    · right
      rw [hres]
      refine ⟨h1, ?_⟩
      have hm2 : (pos.foldl (fun acc kw =>
          if pyIn kw (lowerText (title ++ 32 :: description)) = true then
            (acc.1 + (if pyIn kw (lowerText title) = true then 2 else 1), acc.2 ++ [kw])
          else acc) ((0 : ℚ), ([] : List Text))).2 = m' := by simpa using hm'
      rw [hm2]
      exact hsub
    · constructor
      · intro hlt
        rw [hres] at hlt
        exact absurd hlt (not_lt.mpr h1)
      · intro h
        exact absurd h hneg

theorem mem_map_fst_filter {l : List (Nat × NewsItem)} (hnd : (l.map Prod.fst).Nodup)
    (q : Nat × NewsItem → Bool) {p : Nat × NewsItem} (hp : p ∈ l) :
    p.1 ∈ (l.filter q).map Prod.fst ↔ q p = true := by
  constructor
  · intro h
    rcases List.mem_map.1 h with ⟨p', hp', he⟩
    have hp'l : p' ∈ l := List.mem_of_mem_filter hp'
    have : p' = p := List.inj_on_of_nodup_map hnd hp'l hp he
    exact this ▸ List.of_mem_filter hp'
  · intro h
    exact List.mem_map_of_mem Prod.fst (List.mem_filter.2 ⟨hp, h⟩)

theorem filter_and_map_snd (A : Nat × NewsItem → Bool) (q : NewsItem → Bool) :
    ∀ l : List (Nat × NewsItem),
      (l.filter (fun p => A p && q p.2)).map Prod.snd =
        ((l.filter A).map Prod.snd).filter q
  | [] => rfl
  | p :: l => by
    by_cases hA : A p = true
    · by_cases hq : q p.2 = true
      · simp [List.filter_cons, hA, hq, filter_and_map_snd A q l]
      · simp [List.filter_cons, hA, hq, filter_and_map_snd A q l]
    · simp [List.filter_cons, hA, filter_and_map_snd A q l]

theorem groupInner_spec (thr : ℚ) (x : NewsItem) :
    ∀ (rest : List (Nat × NewsItem)) (g : List NewsItem) (used : List Nat),
      (rest.map Prod.fst).Nodup →
      (groupInner thr x rest g used).1 =
        g ++ (rest.filter (fun p => decide (p.1 ∉ used) &&
          decide (thr ≤ simItem x p.2))).map Prod.snd ∧
      (∀ a, a ∈ (groupInner thr x rest g used).2 ↔ a ∈ used ∨
        a ∈ (rest.filter (fun p => decide (p.1 ∉ used) &&
          decide (thr ≤ simItem x p.2))).map Prod.fst)
  | [], g, used, _ => by simp [groupInner]
  | (j, y) :: rest, g, used, hnd => by
    have hnd2 : j ∉ rest.map Prod.fst ∧ (rest.map Prod.fst).Nodup := by
      rw [List.map_cons, List.nodup_cons] at hnd
      exact hnd
    by_cases hj : j ∈ used
    · simp only [groupInner, if_pos hj]
      have hfil : ((j, y) :: rest).filter (fun p => decide (p.1 ∉ used) &&
          decide (thr ≤ simItem x p.2)) = rest.filter (fun p => decide (p.1 ∉ used) &&
          decide (thr ≤ simItem x p.2)) := by
        rw [List.filter_cons]
        simp [hj]
      rw [hfil]
      exact groupInner_spec thr x rest g used hnd2.2
    · by_cases hsim : thr ≤ simItem x y
      · simp only [groupInner, if_neg hj, if_pos hsim]
        obtain ⟨IH1, IH2⟩ := groupInner_spec thr x rest (g ++ [y]) (j :: used) hnd2.2
        have hcong : rest.filter (fun p => decide (p.1 ∉ j :: used) &&
            decide (thr ≤ simItem x p.2)) = rest.filter (fun p => decide (p.1 ∉ used) &&
            decide (thr ≤ simItem x p.2)) := by
          apply List.filter_congr
          intro p hp
          have hpj : p.1 ≠ j := fun he => hnd2.1 (he ▸ List.mem_map_of_mem Prod.fst hp)
          have hiff : (p.1 ∉ j :: used) ↔ (p.1 ∉ used) := by simp [hpj]
          rw [decide_eq_decide.mpr hiff]
        rw [hcong] at IH1 IH2
        have hfil : ((j, y) :: rest).filter (fun p => decide (p.1 ∉ used) &&
            decide (thr ≤ simItem x p.2)) = (j, y) :: rest.filter (fun p =>
            decide (p.1 ∉ used) && decide (thr ≤ simItem x p.2)) := by
          rw [List.filter_cons]
          simp [hj, hsim]
        constructor
        · rw [IH1, hfil, List.map_cons]
          simp
        · intro a
          rw [IH2 a, hfil, List.map_cons]
          simp only [List.mem_cons]
          tauto
      · simp only [groupInner, if_neg hj, if_neg hsim]
        have hfil : ((j, y) :: rest).filter (fun p => decide (p.1 ∉ used) &&
            decide (thr ≤ simItem x p.2)) = rest.filter (fun p => decide (p.1 ∉ used) &&
            decide (thr ≤ simItem x p.2)) := by
          rw [List.filter_cons]
          simp [hsim]
        rw [hfil]
        exact groupInner_spec thr x rest g used hnd2.2

theorem groupOuter_spec (thr : ℚ) :
    ∀ (el : List (Nat × NewsItem)) (used : List Nat) (groups : List (List NewsItem)),
      (el.map Prod.fst).Nodup →
      groupOuter thr el used groups =
        groups ++ groupSimilarSpec thr
          ((el.filter (fun p => decide (p.1 ∉ used))).map Prod.snd)
  | [], used, groups, _ => by
    simp only [groupOuter, List.filter_nil, List.map_nil]
    rw [show groupSimilarSpec thr [] = [] from by rw [groupSimilarSpec]]
    simp
  | (i, x) :: el, used, groups, hnd => by
    have hnd2 : i ∉ el.map Prod.fst ∧ (el.map Prod.fst).Nodup := by
      rw [List.map_cons, List.nodup_cons] at hnd
      exact hnd
    by_cases hi : i ∈ used
    · simp only [groupOuter, if_pos hi]
      have hfil : ((i, x) :: el).filter (fun p => decide (p.1 ∉ used)) =
          el.filter (fun p => decide (p.1 ∉ used)) := by
        rw [List.filter_cons]
        simp [hi]
      rw [hfil]
      exact groupOuter_spec thr el used groups hnd2.2
    · simp only [groupOuter, if_neg hi]
      obtain ⟨hg, hu⟩ := groupInner_spec thr x el [x] (i :: used) hnd2.2
      have hused2 : el.filter
          (fun p => decide (p.1 ∉ (groupInner thr x el [x] (i :: used)).2)) =
          el.filter (fun p => decide (p.1 ∉ used) &&
            !decide (thr ≤ simItem x p.2)) := by
        apply List.filter_congr
        intro p hp
        have hpi : p.1 ≠ i := fun he => hnd2.1 (he ▸ List.mem_map_of_mem Prod.fst hp)
        by_cases h1 : p.1 ∈ used
        · have hmem : p.1 ∈ (groupInner thr x el [x] (i :: used)).2 :=
            (hu p.1).mpr (Or.inl (List.mem_cons_of_mem _ h1))
          simp [h1, hmem]
        · by_cases h2 : thr ≤ simItem x p.2
          · have hmem : p.1 ∈ (groupInner thr x el [x] (i :: used)).2 :=
              (hu p.1).mpr (Or.inr ((mem_map_fst_filter hnd2.2 _ hp).mpr
                (by simp [hpi, h1, h2])))
            simp [h1, h2, hmem]
          · have hmem : p.1 ∉ (groupInner thr x el [x] (i :: used)).2 := by
              intro hmem
              rcases (hu p.1).mp hmem with h | h
              · rcases List.mem_cons.1 h with h | h
                · exact hpi h
                · exact h1 h
              · have := (mem_map_fst_filter hnd2.2 _ hp).mp h
                simp [hpi, h1, h2] at this
            simp [h1, h2, hmem]
      rw [groupOuter_spec thr el _ _ hnd2.2, hused2]
      have hfil : ((i, x) :: el).filter (fun p => decide (p.1 ∉ used)) =
          (i, x) :: el.filter (fun p => decide (p.1 ∉ used)) := by
        rw [List.filter_cons]
        simp [hi]
      rw [hfil, List.map_cons]
      rw [show groupSimilarSpec thr (x :: (el.filter (fun p =>
          decide (p.1 ∉ used))).map Prod.snd) =
        (x :: ((el.filter (fun p => decide (p.1 ∉ used))).map Prod.snd).filter
          (fun y => decide (thr ≤ simItem x y))) ::
          groupSimilarSpec thr (((el.filter (fun p => decide (p.1 ∉ used))).map
            Prod.snd).filter (fun y => !decide (thr ≤ simItem x y)))
        from by rw [groupSimilarSpec]]
      have hgroup : (groupInner thr x el [x] (i :: used)).1 =
          x :: ((el.filter (fun p => decide (p.1 ∉ used))).map Prod.snd).filter
            (fun y => decide (thr ≤ simItem x y)) := by
        rw [hg]
        have hcong : el.filter (fun p => decide (p.1 ∉ i :: used) &&
            decide (thr ≤ simItem x p.2)) = el.filter (fun p => decide (p.1 ∉ used) &&
            decide (thr ≤ simItem x p.2)) := by
          apply List.filter_congr
          intro p hp
          have hpi : p.1 ≠ i := fun he => hnd2.1 (he ▸ List.mem_map_of_mem Prod.fst hp)
          have hiff : (p.1 ∉ i :: used) ↔ (p.1 ∉ used) := by simp [hpi]
          rw [decide_eq_decide.mpr hiff]
        rw [hcong,
          filter_and_map_snd (fun p => decide (p.1 ∉ used))
            (fun y => decide (thr ≤ simItem x y)) el]
        rfl
      have hrest : (el.filter (fun p => decide (p.1 ∉ used) &&
          !decide (thr ≤ simItem x p.2))).map Prod.snd =
          ((el.filter (fun p => decide (p.1 ∉ used))).map Prod.snd).filter
            (fun y => !decide (thr ≤ simItem x y)) :=
        filter_and_map_snd (fun p => decide (p.1 ∉ used))
          (fun y => !decide (thr ≤ simItem x y)) el
      rw [hgroup, hrest]
      simp

/-- The source's used-set implementation equals the greedy seed/partition
recursion. -/
theorem group_similar_news_eq_spec (l : List NewsItem) (thr : ℚ) :
    group_similar_news l thr = groupSimilarSpec thr l := by
  rcases l with _ | ⟨x, xs⟩
  · rw [group_similar_news, if_pos (by simp), show groupSimilarSpec thr [] = []
      from by rw [groupSimilarSpec]]
  · rw [group_similar_news, if_neg (by simp)]
    rw [groupOuter_spec thr (x :: xs).enum [] [] (by
      rw [List.enum_map_fst]; exact List.nodup_range _)]
    have hfil : ((x :: xs).enum.filter (fun p => decide (p.1 ∉ ([] : List Nat)))) =
        (x :: xs).enum := by
      apply List.filter_eq_self.mpr
      intro p _
      simp
    rw [hfil, List.enum_map_snd]
    simp

theorem groupSimilarSpec_ne_nil (thr : ℚ) :
    ∀ (n : Nat) (l : List NewsItem), l.length ≤ n →
      ∀ g ∈ groupSimilarSpec thr l, g ≠ [] := by
  intro n
  induction n with
  | zero =>
    intro l hl g hg
    have : l = [] := List.length_eq_zero.mp (Nat.le_zero.mp hl)
    subst this
    rw [show groupSimilarSpec thr [] = [] from by rw [groupSimilarSpec]] at hg
    simp at hg
  | succ n ih =>
    intro l hl g hg
    rcases l with _ | ⟨x, xs⟩
    · rw [show groupSimilarSpec thr [] = [] from by rw [groupSimilarSpec]] at hg
      simp at hg
    · rw [show groupSimilarSpec thr (x :: xs) =
          (x :: xs.filter (fun y => decide (thr ≤ simItem x y))) ::
            groupSimilarSpec thr (xs.filter (fun y => !decide (thr ≤ simItem x y)))
          from by rw [groupSimilarSpec]] at hg
      rcases List.mem_cons.1 hg with h | h
      · subst h; simp
      · exact ih (xs.filter (fun y => !decide (thr ≤ simItem x y)))
          (le_trans (List.length_filter_le _ _) (Nat.succ_le_succ_iff.mp hl)) g h

theorem groupSimilarSpec_join_perm (thr : ℚ) :
    ∀ (n : Nat) (l : List NewsItem), l.length ≤ n →
      (groupSimilarSpec thr l).flatten.Perm l := by
  intro n
  induction n with
  | zero =>
    intro l hl
    have : l = [] := List.length_eq_zero.mp (Nat.le_zero.mp hl)
    subst this
    rw [show groupSimilarSpec thr [] = [] from by rw [groupSimilarSpec]]
    rfl
  | succ n ih =>
    intro l hl
    rcases l with _ | ⟨x, xs⟩
    · rw [show groupSimilarSpec thr [] = [] from by rw [groupSimilarSpec]]
      rfl
    · rw [show groupSimilarSpec thr (x :: xs) =
          (x :: xs.filter (fun y => decide (thr ≤ simItem x y))) ::
            groupSimilarSpec thr (xs.filter (fun y => !decide (thr ≤ simItem x y)))
          from by rw [groupSimilarSpec]]
      rw [List.flatten_cons, List.cons_append]
      refine List.Perm.cons x ?_
      have h1 : (groupSimilarSpec thr
          (xs.filter (fun y => !decide (thr ≤ simItem x y)))).flatten.Perm
          (xs.filter (fun y => !decide (thr ≤ simItem x y))) :=
        ih _ (le_trans (List.length_filter_le _ _) (Nat.succ_le_succ_iff.mp hl))
      exact (List.Perm.append_left _ h1).trans (List.filter_append_perm _ xs)

theorem length_le_flatten_length :
    ∀ {gs : List (List NewsItem)}, (∀ g ∈ gs, g ≠ []) → gs.length ≤ gs.flatten.length
  | [], _ => by simp
  | g :: gs, h => by
    rcases hg : g with _ | ⟨a, g'⟩
    · exact absurd rfl (hg ▸ h g (List.mem_cons_self _ _))
    · simp only [List.flatten_cons, List.length_append, List.length_cons]
      have := @length_le_flatten_length gs fun u hu => h u (List.mem_cons_of_mem _ hu)
      omega

theorem keyLE_refl (a : ℚ × ℕ × ℕ) : keyLE a a := Or.inr ⟨rfl, Or.inr ⟨rfl, le_refl _⟩⟩

theorem keyLE_total (a b : ℚ × ℕ × ℕ) : keyLE a b ∨ keyLE b a := by
  unfold keyLE
  rcases lt_trichotomy a.1 b.1 with h | h | h
  · exact Or.inl (Or.inl h)
  · rcases lt_trichotomy a.2.1 b.2.1 with h2 | h2 | h2
    · exact Or.inl (Or.inr ⟨h, Or.inl h2⟩)
    · rcases le_total a.2.2 b.2.2 with h3 | h3
      · exact Or.inl (Or.inr ⟨h, Or.inr ⟨h2, h3⟩⟩)
      · exact Or.inr (Or.inr ⟨h.symm, Or.inr ⟨h2.symm, h3⟩⟩)
    · exact Or.inr (Or.inr ⟨h.symm, Or.inl h2⟩)
  · exact Or.inr (Or.inl h)

theorem keyLE_trans {a b c : ℚ × ℕ × ℕ} (h1 : keyLE a b) (h2 : keyLE b c) :
    keyLE a c := by
  unfold keyLE at h1 h2 ⊢
  rcases h1 with h1 | ⟨e1, h1⟩
  · rcases h2 with h2 | ⟨e2, h2⟩
    · exact Or.inl (lt_trans h1 h2)
    · exact Or.inl (e2 ▸ h1)
  · rcases h2 with h2 | ⟨e2, h2⟩
    · exact Or.inl (e1 ▸ h2)
    · refine Or.inr ⟨e1.trans e2, ?_⟩
      rcases h1 with h1 | ⟨f1, h1⟩
      · rcases h2 with h2 | ⟨f2, h2⟩
        · exact Or.inl (lt_trans h1 h2)
        · exact Or.inl (f2 ▸ h1)
      · rcases h2 with h2 | ⟨f2, h2⟩
        · exact Or.inl (f1 ▸ h2)
        · exact Or.inr ⟨f1.trans f2, le_trans h1 h2⟩

instance : IsTotal NewsItem selBestRel :=
  ⟨fun a b => (keyLE_total (itemKey a) (itemKey b)).symm⟩

instance : IsTrans NewsItem selBestRel :=
  ⟨fun _ _ _ h1 h2 => keyLE_trans h2 h1⟩

theorem head_max_of_sorted {group : List NewsItem} :
    ∀ m ∈ group, keyLE (itemKey m)
      (itemKey (List.insertionSort selBestRel group).headI) := by
  intro m hm
  have hms : m ∈ List.insertionSort selBestRel group :=
    (List.mem_insertionSort _).mpr hm
  rcases hsort : List.insertionSort selBestRel group with _ | ⟨b, rest⟩
  · rw [hsort] at hms; simp at hms
  · rw [hsort] at hms
    have hsorted := List.sorted_insertionSort selBestRel group
    rw [hsort] at hsorted
    rcases List.mem_cons.1 hms with rfl | hmem
    · exact keyLE_refl _
    · exact List.rel_of_sorted_cons hsorted m hmem

theorem is_duplicate_eq_findSome (h : Text → Text) (new_title new_desc : Text)
    (threshold : ℚ) :
    ∀ existing : List CachedTitle,
      is_duplicate h new_title new_desc existing threshold =
        existing.findSome? (fun e =>
          if generate_title_hash h new_title = generate_title_hash h e.title ∨
              threshold ≤ calculate_similarity_score new_title e.title new_desc
                e.description
          then some e.id else none)
  | [] => rfl
  | e :: rest => by
    rw [is_duplicate, List.findSome?_cons]
    by_cases hh : generate_title_hash h new_title = generate_title_hash h e.title
    · rw [if_pos hh, if_pos (Or.inl hh)]
    · by_cases hs : threshold ≤ calculate_similarity_score new_title e.title
        new_desc e.description
      · rw [if_neg hh, if_pos hs, if_pos (Or.inr hs)]
      · rw [if_neg hh, if_neg hs, if_neg (by tauto),
          is_duplicate_eq_findSome h new_title new_desc threshold rest]

/-- C8: selection returns the sole member of a singleton group
unchanged; in general it returns a member of the group maximal under the
lexicographic order (priority score desc, content length desc,
description length desc) — in particular one whose priority score is
maximal in the group, so batch deduplication never drops the
highest-priority-score item of a cluster. -/
theorem select_best_spec (group : List NewsItem) (hne : group ≠ []) :
    (group.length = 1 → select_best_from_group group = group.headI) ∧
    select_best_from_group group ∈ group ∧
    (∀ m ∈ group, keyLE (itemKey m) (itemKey (select_best_from_group group))) ∧
    (∀ m ∈ group, m.priority_score ≤ (select_best_from_group group).priority_score) := by
  have hsel : ∀ m ∈ group, keyLE (itemKey m) (itemKey (select_best_from_group group)) := by
    intro m hm
    rw [select_best_from_group]
    by_cases h1 : group.length = 1
    · rw [if_pos h1]
      rcases group with _ | ⟨a, rest⟩
      · simp at hm
      · rcases rest with _ | ⟨b, rest⟩
        · simp only [List.mem_singleton] at hm
          subst hm
          exact keyLE_refl _
        · simp at h1
    · rw [if_neg h1]
      exact head_max_of_sorted m hm
  refine ⟨fun h1 => by rw [select_best_from_group, if_pos h1], ?_, hsel, ?_⟩
  · rw [select_best_from_group]
    by_cases h1 : group.length = 1
    · rw [if_pos h1]
      rcases group with _ | ⟨a, rest⟩
      · exact absurd rfl hne
      · simp [List.headI]
    · rw [if_neg h1]
      rcases hsort : List.insertionSort selBestRel group with _ | ⟨b, rest⟩
      · have hlen := List.length_insertionSort selBestRel group
        rw [hsort] at hlen
        rcases group with _ | _
        · exact absurd rfl hne
        · simp at hlen
      · have hb : b ∈ List.insertionSort selBestRel group := by
          rw [hsort]
          exact List.mem_cons_self _ _
        simpa [List.headI] using (List.mem_insertionSort _).mp hb
  · intro m hm
    have hk := hsel m hm
    unfold keyLE itemKey at hk
    rcases hk with hk | ⟨he, _⟩
    · exact le_of_lt hk
    · exact le_of_eq he

/-- Witness for `select_best_spec` at a concrete two-item group. -/
theorem select_best_spec_witness :
    sampleGroup ≠ [] ∧
    ((sampleGroup.length = 1 → select_best_from_group sampleGroup = sampleGroup.headI) ∧
      select_best_from_group sampleGroup ∈ sampleGroup ∧
      (∀ m ∈ sampleGroup, keyLE (itemKey m) (itemKey (select_best_from_group sampleGroup))) ∧
      (∀ m ∈ sampleGroup,
        m.priority_score ≤ (select_best_from_group sampleGroup).priority_score)) :=
  ⟨by simp [sampleGroup], select_best_spec sampleGroup (by simp [sampleGroup])⟩

/-- C7: every group produced by batch grouping is non-empty, the groups
partition the input (their concatenation is a permutation of the input
list, so every item belongs to exactly one group), and batch
deduplication never increases the item count. -/
theorem group_partition (l : List NewsItem) (thr : ℚ) :
    (∀ g ∈ group_similar_news l thr, g ≠ []) ∧
    (group_similar_news l thr).flatten.Perm l ∧
    (deduplicate_news_for_blog l).length ≤ l.length := by
  refine ⟨?_, ?_, ?_⟩
  · rw [group_similar_news_eq_spec]
    exact groupSimilarSpec_ne_nil thr l.length l le_rfl
  · rw [group_similar_news_eq_spec]
    exact groupSimilarSpec_join_perm thr l.length l le_rfl
  · rw [deduplicate_news_for_blog]
    by_cases hl : l.isEmpty
    · rw [if_pos hl]
      simp
    · rw [if_neg hl, List.length_map]
      have h1 : ∀ g ∈ group_similar_news l (1 / 2), g ≠ [] := by
        rw [group_similar_news_eq_spec]
        exact groupSimilarSpec_ne_nil (1 / 2) l.length l le_rfl
      have h2 : (group_similar_news l (1 / 2)).flatten.Perm l := by
        rw [group_similar_news_eq_spec]
        exact groupSimilarSpec_join_perm (1 / 2) l.length l le_rfl
      exact le_trans (length_le_flatten_length h1) (le_of_eq h2.length_eq)

/-- C9: iterating the candidates in list order, an exact hash match
returns that candidate's id immediately (regardless of its similarity),
otherwise the similarity threshold decides for that candidate; the
result is the first candidate matching either check, and `none` exactly
when no candidate matches either. -/
theorem is_duplicate_policy (h : Text → Text) (new_title new_desc : Text)
    (existing : List CachedTitle) (threshold : ℚ) :
    is_duplicate h new_title new_desc existing threshold =
      existing.findSome? (fun e =>
        if generate_title_hash h new_title = generate_title_hash h e.title ∨
            threshold ≤ calculate_similarity_score new_title e.title new_desc
              e.description
        then some e.id else none) ∧
    (is_duplicate h new_title new_desc existing threshold = none ↔
      ∀ e ∈ existing,
        generate_title_hash h new_title ≠ generate_title_hash h e.title ∧
        calculate_similarity_score new_title e.title new_desc e.description
          < threshold) := by
  refine ⟨is_duplicate_eq_findSome h new_title new_desc threshold existing, ?_⟩
  rw [is_duplicate_eq_findSome h new_title new_desc threshold existing,
    List.findSome?_eq_none_iff]
  constructor
  · intro hnone e he
    have hfe := hnone e he
    by_cases hcond : generate_title_hash h new_title = generate_title_hash h e.title ∨
        threshold ≤ calculate_similarity_score new_title e.title new_desc e.description
    · rw [if_pos hcond] at hfe
      exact absurd hfe (by simp)
    · rw [not_or, not_le] at hcond
      exact hcond
  · intro hall e he
    have hc : ¬ (generate_title_hash h new_title = generate_title_hash h e.title ∨
        threshold ≤ calculate_similarity_score new_title e.title new_desc
          e.description) := by
      rw [not_or, not_le]
      exact hall e he
    rw [if_neg hc]

/-- C5 (amended): batch grouping is the single greedy pass in input
order: each not-yet-assigned item seeds a new group, and a later
not-yet-assigned item joins the seed's group exactly when its similarity
to the seed (not to other group members) meets or exceeds the
threshold. -/
theorem group_similar_news_greedy (l : List NewsItem) (thr : ℚ) :
    group_similar_news l thr = groupSimilarSpec thr l :=
  group_similar_news_eq_spec l thr

theorem groupSimilarSpec_nil (thr : ℚ) : groupSimilarSpec thr [] = [] := by
  rw [groupSimilarSpec]

theorem alpha_similarity_value :
    simItem itemAlphaBravo itemAlphaCharlie = 1 / 3 := by
  have h1 : (pySplit (normalize_text (chars "alpha bravo" ++ 32 :: ([] : Text)))).dedup
      = [chars "alpha", chars "bravo"] := by decide
  have h2 : (pySplit (normalize_text (chars "alpha charlie" ++ 32 :: ([] : Text)))).dedup
      = [chars "alpha", chars "charlie"] := by decide
  have e1 : extract_key_entities (chars "alpha bravo" ++ 32 :: ([] : Text)) = [] := by
    decide
  have hI : ([chars "alpha", chars "bravo"].filter
      (fun w => [chars "alpha", chars "charlie"].contains w)).length = 1 := by decide
  have hU : ([chars "alpha", chars "charlie"].filter
      (fun w => !([chars "alpha", chars "bravo"].contains w))).length = 1 := by decide
  show calculate_similarity_score (chars "alpha bravo") (chars "alpha charlie") [] []
      = 1 / 3
  simp only [calculate_similarity_score, h1, h2, e1, hI, hU, List.length_cons,
    List.length_nil, List.isEmpty_cons, List.isEmpty_nil]
  norm_num

/-- C5 counterexample: at a threshold exactly equal to the pair's
similarity (1/3), the code puts both items into one group (the join test
is `similarity >= threshold`), whereas joining only when the similarity
strictly exceeds the threshold would give two singleton groups. -/
theorem group_similar_at_threshold :
    simItem itemAlphaBravo itemAlphaCharlie = 1 / 3 ∧
    ¬ ((1 : ℚ) / 3 < 1 / 3) ∧
    group_similar_news [itemAlphaBravo, itemAlphaCharlie] (1 / 3) =
      [[itemAlphaBravo, itemAlphaCharlie]] := by
  refine ⟨alpha_similarity_value, by norm_num, ?_⟩
  rw [group_similar_news_eq_spec]
  have hle : ((3 : ℚ)⁻¹) ≤ simItem itemAlphaBravo itemAlphaCharlie := by
    rw [alpha_similarity_value]
    norm_num
  rw [show groupSimilarSpec (1 / 3) [itemAlphaBravo, itemAlphaCharlie] =
      (itemAlphaBravo :: [itemAlphaCharlie].filter
        (fun y => decide ((1 : ℚ) / 3 ≤ simItem itemAlphaBravo y))) ::
      groupSimilarSpec (1 / 3) ([itemAlphaCharlie].filter
        (fun y => !decide ((1 : ℚ) / 3 ≤ simItem itemAlphaBravo y)))
    from by rw [groupSimilarSpec]]
  simp [hle, groupSimilarSpec_nil]

/-- C1 counterexample: the similarity of the two Fed titles (with empty
descriptions) is exactly 1/10, not at least 0.6: the entity sets
{"0.25%", "Raises", "Interest", "Rates"} and {"0.25", "Reserve"} are
disjoint as string sets ("0.25%" ≠ "0.25"), so the blended score is
0.4·(2/8) + 0.6·0 = 0.1. -/
theorem fed_titles_similarity_below_threshold :
    ¬ ((3 : ℚ) / 5 ≤ calculate_similarity_score
      (chars "Fed Raises Interest Rates by 0.25%")
      (chars "Federal Reserve increases interest rates by 0.25 percent") [] []) := by
  rw [fed_similarity_value]
  norm_num

/-- C1 (amended): the similarity score of the pair is 0.1, below the 0.6
threshold, so the similarity check does not classify the second title as
a duplicate of the first; since the title hashes also differ (hypothesis
on the external digest), the near-duplicate detector returns `none`. -/
theorem fed_titles_not_duplicate (h : Text → Text)
    (hh : generate_title_hash h (chars "Fed Raises Interest Rates by 0.25%") ≠
      generate_title_hash h
        (chars "Federal Reserve increases interest rates by 0.25 percent")) :
    calculate_similarity_score (chars "Fed Raises Interest Rates by 0.25%")
      (chars "Federal Reserve increases interest rates by 0.25 percent") [] []
      = 1 / 10 ∧
    is_duplicate h (chars "Fed Raises Interest Rates by 0.25%") []
      [⟨1, chars "Federal Reserve increases interest rates by 0.25 percent", []⟩]
      (3 / 5) = none := by
  refine ⟨fed_similarity_value, ?_⟩
  have hs : ¬ ((3 : ℚ) / 5 ≤ calculate_similarity_score
      (chars "Fed Raises Interest Rates by 0.25%")
      (chars "Federal Reserve increases interest rates by 0.25 percent") [] []) := by
    rw [fed_similarity_value]
    norm_num
  simp only [is_duplicate]
  rw [if_neg hh, if_neg hs]

/-- Witness for `fed_titles_not_duplicate`, instantiating the external
digest with the identity on the normalized text: the two hashes then
differ because the normalized titles differ. -/
theorem fed_titles_not_duplicate_witness :
    (generate_title_hash (fun t => t) (chars "Fed Raises Interest Rates by 0.25%") ≠
      generate_title_hash (fun t => t)
        (chars "Federal Reserve increases interest rates by 0.25 percent")) ∧
    (calculate_similarity_score (chars "Fed Raises Interest Rates by 0.25%")
      (chars "Federal Reserve increases interest rates by 0.25 percent") [] []
      = 1 / 10 ∧
    is_duplicate (fun t => t) (chars "Fed Raises Interest Rates by 0.25%") []
      [⟨1, chars "Federal Reserve increases interest rates by 0.25 percent", []⟩]
      (3 / 5) = none) :=
  ⟨by decide, fed_titles_not_duplicate (fun t => t) (by decide)⟩

/-- C3 (amended): a failing cache refresh does not escape `process_feed`
(the per-source handler catches it) and leaves the in-memory snapshot
unchanged, but the current source's entries are *not* processed with the
stale snapshot: the source aborts with the error recorded in its stats
and all per-entry counts zero. -/
theorem process_feed_refresh_error (h : Text → Text) (pos neg : List Text)
    (entries : List FeedEntry) (e : Text) (now : Nat) (st : CacheState)
    (insertRes : Nat → Option Nat) (hstale : cacheStale st now = true) :
    process_feed h pos neg (.ok entries) (.error e) now st insertRes =
      (⟨false, entries.length, 0, 0, 0, some e⟩, st) := by
  have hq : get_recent_titles_cached (.error e) now st = .error e := by
    rw [get_recent_titles_cached, if_pos hstale]
  simp [process_feed, hq]

/-- C3 counterexample: the stale snapshot already contains the incoming
title and the refresh query fails.  Falling back to the existing
snapshot (the claim's behaviour, equivalently a refresh returning the
same rows — second conjunct) would process the entry and flag it as a
duplicate; instead the source aborts with the error and processes
nothing (first conjunct). -/
theorem refresh_failure_aborts_source :
    process_feed (fun t => t) [] [] (.ok [feedEntryInflation])
      (.error (chars "db down")) 1000 staleState (fun _ => some 7) =
      (⟨false, 1, 0, 0, 0, some (chars "db down")⟩, staleState) ∧
    process_feed (fun t => t) [] [] (.ok [feedEntryInflation])
      (.ok [⟨5, chars "Inflation rises", []⟩]) 1000 staleState (fun _ => some 7) =
      (⟨true, 1, 0, 0, 1, none⟩,
        ⟨some [⟨5, chars "Inflation rises", []⟩], some 1000⟩) := by
  constructor
  · rfl
  · rfl

/-- Witness for `process_feed_refresh_error` at the concrete stale
state. -/
theorem process_feed_refresh_error_witness :
    cacheStale staleState 1000 = true ∧
    process_feed (fun t => t) [] [] (.ok [feedEntryInflation])
      (.error (chars "db down")) 1000 staleState (fun _ => some 7) =
      (⟨false, 1, 0, 0, 0, some (chars "db down")⟩, staleState) :=
  ⟨by decide, process_feed_refresh_error (fun t => t) [] [] [feedEntryInflation]
    (chars "db down") 1000 staleState (fun _ => some 7) (by decide)⟩

/-- C4: the claim (and the docstring "cache de 5 minutos") say the
snapshot is refreshed whenever it is older than 5 minutes.  The code
tests `(now - _cache_time).seconds > 300`, the seconds *component* of
the timedelta: a snapshot exactly one day old (86400 s > 300 s) has
seconds component 0, is treated as fresh, and is served without querying
storage — the fresh storage row is ignored. -/
theorem cache_stale_one_day_bug :
    (300 : Nat) < 86400 - 0 ∧
    cacheStale dayOldState 86400 = false ∧
    get_recent_titles_cached (.ok [⟨1, chars "fresh row", []⟩]) 86400 dayOldState =
      .ok ([], dayOldState) := by
  refine ⟨by norm_num, by decide, ?_⟩
  rw [get_recent_titles_cached, if_neg (by decide)]
  rfl
